import Mathlib

/-!
Verification of the graph-composition core in
`Source/CNTKv2LibraryDll/CompositeFunction.h`.

The operation graph is shallowly embedded: the finitely many `Function`
objects of a graph are identified by indices `Fin n`; a `Variable` carries
its kind and (for Output variables) the index of its owner function.
`Function::Inputs(pythonOperandOrder)` and `Function::InitOutputs()` become
the two fields of `Graph`.  The recursive visitor `TraverseVariables` is
embedded with an explicit fuel argument (the C++ recursion is bounded by the
finitely many function objects on the heap; fuel `n` is proved sufficient
below), and the visitor callback is embedded by returning the trace of the
arguments the functor is invoked on, in invocation order.
-/

namespace CNTK

/-- The kinds a `CNTK::Variable` can have (`VariableKind`). -/
inductive VariableKind
  | input
  | output
  | parameter
  | constant
  | placeholder
deriving DecidableEq

/-- A `CNTK::Variable` in a graph with `n` function objects.  Identity
(`uid`) models C++ object identity; `owner` models `Variable::Owner()` and
is meaningful only for Output variables (in C++ an Output variable always
points at the one function object that produced it, hence `Fin n`). -/
structure Variable (n : Nat) where
  uid : Nat
  kind : VariableKind
  owner : Fin n
deriving DecidableEq

/-- Embeds `Variable::IsOutput()`. -/
def Variable.IsOutput {n : Nat} (v : Variable n) : Bool :=
  v.kind == VariableKind.output

/-- The operation graph underlying a composite: for each function object,
its `Inputs(pythonOperandOrder)` list and its `InitOutputs()` list. -/
structure Graph (n : Nat) where
  inputsOf : Fin n → Bool → List (Variable n)
  outputsOf : Fin n → List (Variable n)

/-- The input loop of `CompositeFunction::TraverseVariables` (the
`for (const auto& rootInput : rootFunctionInputs)` loop): threads the
visited set and the functor-invocation trace through the input list,
recursing via `self` into the owner of any not-yet-visited Output input;
non-Output inputs are passed to the functor directly. -/
def traverseInputs {n : Nat} (g : Graph n)
    (self : Fin n → Finset (Fin n) → Option (Finset (Fin n) × List (Variable n))) :
    List (Variable n) → Finset (Fin n) × List (Variable n) →
    Option (Finset (Fin n) × List (Variable n))
  | [], acc => some acc
  | v :: rest, acc =>
    if v.IsOutput then
      if v.owner ∈ acc.1 then
        traverseInputs g self rest acc
      else
        match self v.owner acc.1 with
        | none => none
        | some out => traverseInputs g self rest (out.1, acc.2 ++ out.2)
    else
      traverseInputs g self rest (acc.1, acc.2 ++ [v])

/-- Embeds the recursive overload of `CompositeFunction::TraverseVariables`
(the one taking the `visitedFunctions` set).  The result is the final
visited set together with the trace of Variables the functor was invoked
on, in order.  `fuel` bounds the recursion depth; `traverseF_isSome` below
shows fuel `n` always suffices, and `traverseF_fuel_ge` that the result is
the same for every larger fuel. -/
def traverseF {n : Nat} (g : Graph n) (pythonOperandOrder preOrder : Bool) :
    Nat → Fin n → Finset (Fin n) → Option (Finset (Fin n) × List (Variable n))
  | 0, _, _ => none
  | fuel + 1, rootFunction, visitedFunctions =>
    match traverseInputs g (fun r vis => traverseF g pythonOperandOrder preOrder fuel r vis)
        (g.inputsOf rootFunction pythonOperandOrder)
        (insert rootFunction visitedFunctions, []) with
    | none => none
    | some out =>
      some (out.1,
        if preOrder then g.outputsOf rootFunction ++ out.2
        else out.2 ++ g.outputsOf rootFunction)

/-- Embeds the wrapper overload of `CompositeFunction::TraverseVariables`
that starts from a fresh `visitedFunctions` set. -/
def TraverseVariables {n : Nat} (g : Graph n) (pythonOperandOrder preOrder : Bool)
    (rootFunction : Fin n) : Option (Finset (Fin n) × List (Variable n)) :=
  traverseF g pythonOperandOrder preOrder n rootFunction ∅

/-- Embeds `CompositeFunction::PreorderTraverseVariables`. -/
def PreorderTraverseVariables {n : Nat} (g : Graph n) (rootFunction : Fin n)
    (pythonOperandOrder : Bool) : Option (Finset (Fin n) × List (Variable n)) :=
  TraverseVariables g pythonOperandOrder true rootFunction

/-- Embeds `CompositeFunction::PostorderTraverseVariables`. -/
def PostorderTraverseVariables {n : Nat} (g : Graph n) (rootFunction : Fin n)
    (pythonOperandOrder : Bool) : Option (Finset (Fin n) × List (Variable n)) :=
  TraverseVariables g pythonOperandOrder false rootFunction

/-- Modelled from the spec: `CompositeFunction::Collect` calls
`PreorderTraverseFunctions`, whose body is not under `src/`.  The spec says
Collect "computes the transitive closure of operations reachable from
`root` via Traversal, with no visitor side effects other than set
membership"; we therefore model it as the visited-function set computed by
the Traversal embedding (with the default `pythonOperandOrder = false`). -/
def Collect {n : Nat} (g : Graph n) (rootFunction : Fin n) : Option (Finset (Fin n)) :=
  (traverseF g false true n rootFunction ∅).map Prod.fst

/-- The fields of `CompositeFunction` relevant to graph ownership:
the root function and the owned set `m_allPrimitiveFunctions`. -/
structure CompositeFunction (n : Nat) where
  rootFunction : Fin n
  m_allPrimitiveFunctions : Finset (Fin n)
deriving DecidableEq

/-- Embeds `CompositeFunction::Create`: collect the set of all functions in
the graph and construct the composite owning that set. -/
def Create {n : Nat} (g : Graph n) (rootFunction : Fin n) : Option (CompositeFunction n) :=
  (Collect g rootFunction).map fun s => ⟨rootFunction, s⟩

/-- Embeds the static `CompositeFunction::DetermineInputs`: run Traversal
in pre-order and retain, through the functor, every non-Output variable not
seen before (the `inputs` / `uniqueInputs` accumulator pair). -/
def DetermineInputs {n : Nat} (g : Graph n) (rootFunction : Fin n)
    (pythonOperandOrder : Bool) : Option (List (Variable n)) :=
  (traverseF g pythonOperandOrder true n rootFunction ∅).map fun out =>
    (out.2.foldl
      (fun st v =>
        if v.IsOutput = false ∧ v ∉ st.2 then (st.1 ++ [v], insert v st.2) else st)
      (([] : List (Variable n)), (∅ : Finset (Variable n)))).1

/-- Embeds `CompositeFunction::OnPlaceholdersReplaced`: for every replaced
placeholder whose replacement is an Output variable, re-run `Collect` from
the replacement's owner and union the result into
`m_allPrimitiveFunctions`. -/
def OnPlaceholdersReplaced {n : Nat} (g : Graph n)
    (placeholderReplacements : Variable n → Variable n)
    (replacedPlaceholders : List (Variable n)) (c : CompositeFunction n) :
    Option (CompositeFunction n) :=
  replacedPlaceholders.foldlM
    (fun comp replacedPlaceholder =>
      let replacingVariable := placeholderReplacements replacedPlaceholder
      if replacingVariable.IsOutput then
        (Collect g replacingVariable.owner).map fun s =>
          { comp with m_allPrimitiveFunctions := comp.m_allPrimitiveFunctions ∪ s }
      else
        pure comp)
    c

/-- Reachability along Output-variable ownership edges: the operations a
traversal starting at `root` can reach by repeatedly following an Output
input back to its owning function. -/
inductive Reaches {n : Nat} (g : Graph n) (pythonOperandOrder : Bool) :
    Fin n → Fin n → Prop
  | refl (f : Fin n) : Reaches g pythonOperandOrder f f
  | step {f f' : Fin n} {v : Variable n} :
      Reaches g pythonOperandOrder f f' →
      v ∈ g.inputsOf f' pythonOperandOrder →
      v.IsOutput = true →
      Reaches g pythonOperandOrder f v.owner

/-- Wellformedness invariants of a C++ operation graph: output lists are
duplicate-free, an Output variable's `Owner()` is the function whose output
list it appears in, every entry of an output list has Output kind, and an
Output-kind input is indeed among the outputs of its owner. -/
def Graph.Wf {n : Nat} (g : Graph n) : Prop :=
  (∀ f : Fin n, (g.outputsOf f).Nodup) ∧
  (∀ f : Fin n, ∀ v ∈ g.outputsOf f, v.owner = f) ∧
  (∀ f : Fin n, ∀ v ∈ g.outputsOf f, v.IsOutput = true) ∧
  (∀ (f : Fin n) (b : Bool), ∀ v ∈ g.inputsOf f b,
    v.IsOutput = true → v ∈ g.outputsOf v.owner)

/-- Wellformedness of a concrete graph is decidable. -/
instance {n : Nat} (g : Graph n) : Decidable g.Wf :=
  inferInstanceAs (Decidable ((∀ f : Fin n, (g.outputsOf f).Nodup) ∧
    (∀ f : Fin n, ∀ v ∈ g.outputsOf f, v.owner = f) ∧
    (∀ f : Fin n, ∀ v ∈ g.outputsOf f, v.IsOutput = true) ∧
    (∀ (f : Fin n) (b : Bool), ∀ v ∈ g.inputsOf f b,
      v.IsOutput = true → v ∈ g.outputsOf v.owner)))

/-- The functor invocations contributed by one visited function: all of its
outputs, plus its non-Output inputs. -/
def nodeTrace {n : Nat} (g : Graph n) (py : Bool) (f : Fin n) : Multiset (Variable n) :=
  (g.outputsOf f : Multiset (Variable n)) +
    ((g.inputsOf f py).filter (fun v => !v.IsOutput) : Multiset (Variable n))

/-- First-seen deduplication: keep each element's first occurrence, skipping
elements already in `seen`.  This is the specification-side description of
the `inputs`/`uniqueInputs` accumulator of `DetermineInputs`. -/
def dedupKeepFirst {n : Nat} (seen : Finset (Variable n)) :
    List (Variable n) → List (Variable n)
  | [] => []
  | v :: rest =>
    if v ∈ seen then dedupKeepFirst seen rest
    else v :: dedupKeepFirst (insert v seen) rest

/-- Embeds `CNTKBackPropState`: the backprop state of a Forward call
captures the Parameter timestamps observed at that time
(`m_backpropRootsForwardTimeStamps`, an unordered map embedded as a
key/value list). -/
structure CNTKBackPropState (n : Nat) where
  m_backpropRootsForwardTimeStamps : List (Variable n × Nat)
deriving DecidableEq

/-- Embeds the accessor `CNTKBackPropState::BackpropRootsForwardTimeStamps`. -/
def CNTKBackPropState.BackpropRootsForwardTimeStamps {n : Nat}
    (s : CNTKBackPropState n) : List (Variable n × Nat) :=
  s.m_backpropRootsForwardTimeStamps

/-- The error outcomes of this core that the claims are about. -/
inductive EvalError
  | notImplemented
  | staleBackpropHandle
  | unsupportedVersion (version : Nat)
deriving DecidableEq

/-- Modelled from the spec: the body of `CompositeFunction::Backward` is
not under `src/` (only its declaration at CompositeFunction.h:107-109).
The spec says Backward "validates that `handle`'s captured Parameter
timestamps match current Parameter timestamps for every Parameter reachable
from its retained roots — a mismatch ... is a fatal usage error, not a
silent recompute".  We model that validation: given the current timestamp
of every captured Parameter, Backward succeeds exactly when every captured
timestamp is still current and otherwise fails with the stale-handle usage
error, producing no gradients. -/
def Backward {n : Nat} (state : CNTKBackPropState n)
    (currentTimeStamps : Variable n → Nat) : Except EvalError Unit :=
  if state.m_backpropRootsForwardTimeStamps.all
      (fun pt => currentTimeStamps pt.1 == pt.2) then
    Except.ok ()
  else
    Except.error EvalError.staleBackpropHandle

/-- The storage-reference state of a composite:
`m_existingNetworkStorageReferences` is the list of weak references handed
out so far (`none` models an expired weak pointer, `some i` a still-live
reference to packed value `i`), and `erased i` the erased flag of packed
value `i`.  `PackedValue::Erase` is not under `src/` and is modelled from
the spec as marking the value's contents erased/invalid. -/
structure StorageState where
  m_existingNetworkStorageReferences : List (Option Nat)
  erased : Nat → Bool

/-- Embeds `CompositeFunction::ClearExistingOutputOrGradientStorageReferences`:
lock every tracked weak reference in order, `Erase` the ones whose target is
still alive, skip the expired ones, and clear the tracked list. -/
def ClearExistingOutputOrGradientStorageReferences (s : StorageState) : StorageState :=
  { m_existingNetworkStorageReferences := [],
    erased :=
      s.m_existingNetworkStorageReferences.foldl
        (fun er ref =>
          match ref with
          | some i => fun j => if j = i then true else er j
          | none => er)
        s.erased }

/-- Embeds `CompositeFunction::s_serializationVersion` (version history: 1
initial, 2 stateful functions via a dedicated dictionary value, 3 internal
state stored directly in the attributes dictionary). -/
def s_serializationVersion : Nat := 3

/-- How a deserialized document's stateful-node internal state is
restored. -/
inductive StateRestoration
  | sideTablePass
  | inlineAttributes
deriving DecidableEq

/-- Modelled from the spec: the bodies of `CompositeFunction::Deserialize`
and `RestoreStatefulFunctions` are not under `src/` (only their
declarations and the version-history comment are).  The spec says internal
state is restored "according to the version tag: version ≤ 2 stores state
in a separate side-table requiring a dedicated restoration pass after graph
reconstruction; version ≥ 3 stores state inline in each operation's own
attributes and is restored during normal reconstruction.  Unknown/future
versions fail with a format error rather than guessing", the supported
serialization version being `s_serializationVersion = 3`. -/
def restoreStatefulFunctionsMode (version : Nat) : Except EvalError StateRestoration :=
  if s_serializationVersion < version then
    Except.error (EvalError.unsupportedVersion version)
  else if version ≤ 2 then
    Except.ok StateRestoration.sideTablePass
  else
    Except.ok StateRestoration.inlineAttributes

/-- Opaque stand-in for a `ValuePtr`. -/
structure Value where
  id : Nat
deriving DecidableEq

/-- Opaque stand-in for a `DeviceDescriptor`. -/
structure DeviceDescriptor where
  id : Nat
deriving DecidableEq

/-- Embeds the inherited vector-based `CompositeFunction::Forward` overload
(CompositeFunction.h:93-99): its entire body is `NOT_IMPLEMENTED` (raising
a logic error), so it fails without evaluating anything. -/
def ForwardVectorOverload {n : Nat} (c : CompositeFunction n)
    (inputValues : List Value)
    (outputs : List (Variable n × Value))
    (computeDevice : DeviceDescriptor)
    (outputsToRetainBackwardStateFor : List (Variable n)) :
    Except EvalError (CNTKBackPropState n) :=
  Except.error EvalError.notImplemented

/-! ### Concrete example graphs used to witness the theorems -/

/-- A parameter variable of the diamond example graph. -/
def dPar : Variable 4 := ⟨0, VariableKind.parameter, ⟨0, by omega⟩⟩

/-- A non-Output input variable shared by functions 1 and 2 of the diamond
example graph. -/
def dIn : Variable 4 := ⟨1, VariableKind.input, ⟨0, by omega⟩⟩

/-- The output of function 3 of the diamond example graph. -/
def dOut3 : Variable 4 := ⟨10, VariableKind.output, ⟨3, by omega⟩⟩

/-- The output of function 1 of the diamond example graph. -/
def dOut1 : Variable 4 := ⟨11, VariableKind.output, ⟨1, by omega⟩⟩

/-- The output of function 2 of the diamond example graph. -/
def dOut2 : Variable 4 := ⟨12, VariableKind.output, ⟨2, by omega⟩⟩

/-- The output of the root function 0 of the diamond example graph. -/
def dOut0 : Variable 4 := ⟨13, VariableKind.output, ⟨0, by omega⟩⟩

/-- A placeholder variable, used to exercise placeholder replacement. -/
def dPlaceholder : Variable 4 := ⟨20, VariableKind.placeholder, ⟨0, by omega⟩⟩

/-- A diamond-shaped example graph: function 0 consumes the outputs of 1
and 2, which both consume the output of 3 (a shared sub-expression) and the
same non-Output variable `dIn`; function 3 consumes parameter `dPar`. -/
def diamondGraph : Graph 4 where
  inputsOf f _ :=
    if f.val = 0 then [dOut1, dOut2]
    else if f.val = 1 then [dOut3, dIn]
    else if f.val = 2 then [dOut3, dIn]
    else [dPar]
  outputsOf f :=
    if f.val = 0 then [dOut0]
    else if f.val = 1 then [dOut1]
    else if f.val = 2 then [dOut2]
    else [dOut3]

/-- The visited-function set of the diamond graph's traversal from its
root, in the order the traversal inserts. -/
def diamondOwned : Finset (Fin 4) := ⟨Quot.mk _ [2, 3, 1, 0], by decide⟩

/-- The functor-invocation trace of the diamond graph's pre-order traversal
from its root. -/
def diamondTrace : List (Variable 4) := [dOut0, dOut1, dOut3, dPar, dIn, dOut2, dIn]

/-- The functor-invocation trace of the diamond graph's post-order
traversal from its root. -/
def diamondTracePost : List (Variable 4) := [dPar, dOut3, dIn, dOut1, dIn, dOut2, dOut0]

/-- The owned set of the diamond example after splicing in the sub-graph
under function 3: the base `{0}` united with `Collect`'s closure `{3}`. -/
def splicedOwned : Finset (Fin 4) := ⟨Quot.mk _ [0, 3], by decide⟩

/-- A placeholder-replacement map sending `dPlaceholder` to `dOut3`. -/
def diamondReplacements : Variable 4 → Variable 4 :=
  fun v => if v = dPlaceholder then dOut3 else v

/-- A composite over the diamond graph that owns only its root, before a
placeholder replacement splices in a sub-graph. -/
def diamondBaseComposite : CompositeFunction 4 := ⟨0, {0}⟩

/-- A non-Output input variable consumed by both functions of
`shareGraph`. -/
def sIn : Variable 2 := ⟨0, VariableKind.input, ⟨0, by omega⟩⟩

/-- The output of function 1 of `shareGraph`. -/
def sOut1 : Variable 2 := ⟨1, VariableKind.output, ⟨1, by omega⟩⟩

/-- The output of the root function 0 of `shareGraph`. -/
def sOut0 : Variable 2 := ⟨2, VariableKind.output, ⟨0, by omega⟩⟩

/-- A graph in which the same non-Output variable `sIn` is consumed by two
different operations: function 0 consumes `sIn` and the output of function
1, and function 1 consumes `sIn` again. -/
def shareGraph : Graph 2 where
  inputsOf f _ := if f.val = 0 then [sIn, sOut1] else [sIn]
  outputsOf f := if f.val = 0 then [sOut0] else [sOut1]

/-- A parameter variable used for the backprop-state example. -/
def tsParam : Variable 1 := ⟨0, VariableKind.parameter, ⟨0, by omega⟩⟩

/-- A backprop state that captured timestamp 5 for `tsParam`. -/
def tsState : CNTKBackPropState 1 := ⟨[(tsParam, 5)]⟩

/-- Current timestamps after `tsParam` was mutated (timestamp advanced to
6). -/
def tsCurrentMutated : Variable 1 → Nat := fun _ => 6

/-- An example storage state with two live references and one expired
one. -/
def exampleStorage : StorageState := ⟨[some 0, none, some 2], fun _ => false⟩

/-! ### Basic properties of the traversal: monotonicity of the visited set -/

/-- The input loop only grows the visited set, provided the recursive
visitor does. -/
theorem traverseInputs_sub {n : Nat} (g : Graph n)
    (self : Fin n → Finset (Fin n) → Option (Finset (Fin n) × List (Variable n)))
    (hself : ∀ r vis out, self r vis = some out → vis ⊆ out.1) :
    ∀ (l : List (Variable n)) (acc out : Finset (Fin n) × List (Variable n)),
      traverseInputs g self l acc = some out → acc.1 ⊆ out.1 := by
  intro l
  induction l with
  | nil =>
    intro acc out h
    simp only [traverseInputs, Option.some.injEq] at h
    subst h
    exact Finset.Subset.refl _
  | cons v rest ih =>
    intro acc out h
    simp only [traverseInputs] at h
    by_cases hv : v.IsOutput = true
    · rw [if_pos hv] at h
      by_cases hmem : v.owner ∈ acc.1
      · rw [if_pos hmem] at h
        exact ih _ _ h
      · rw [if_neg hmem] at h
        cases hs : self v.owner acc.1 with
        | none => rw [hs] at h; cases h
        | some o =>
          rw [hs] at h
          exact (hself _ _ _ hs).trans (ih (o.1, acc.2 ++ o.2) out h)
    · rw [if_neg hv] at h
      exact ih (acc.1, acc.2 ++ [v]) out h

/-- A completed traversal call has inserted its root and only grown the
visited set. -/
theorem traverseF_sub {n : Nat} (g : Graph n) (py preO : Bool) :
    ∀ (fuel : Nat) (root : Fin n) (visited : Finset (Fin n)) out,
      traverseF g py preO fuel root visited = some out →
      insert root visited ⊆ out.1 := by
  intro fuel
  induction fuel with
  | zero => intro root visited out h; cases h
  | succ fuel ih =>
    intro root visited out h
    rw [traverseF] at h
    cases hs : traverseInputs g (fun r vis => traverseF g py preO fuel r vis)
        (g.inputsOf root py) (insert root visited, []) with
    | none => rw [hs] at h; cases h
    | some o =>
      rw [hs] at h
      simp only [Option.some.injEq] at h
      subst h
      exact traverseInputs_sub g _
        (fun r vis o ho => (Finset.subset_insert r vis).trans (ih r vis o ho)) _ _ _ hs

/-! ### Termination: fuel `n` always suffices and the result is stable -/

/-- A visited set missing at least one function has fewer than `n`
elements. -/
theorem visited_card_lt {n : Nat} {visited : Finset (Fin n)} {root : Fin n}
    (h : root ∉ visited) : visited.card < n := by
  have hne : visited ≠ Finset.univ := by
    intro he
    exact h (he.symm ▸ Finset.mem_univ root)
  have hlt := Finset.card_lt_card (Finset.ssubset_univ_iff.mpr hne)
  simpa [Finset.card_univ, Fintype.card_fin] using hlt

/-- The input loop completes whenever the recursive visitor completes on
every not-yet-visited root. -/
theorem traverseInputs_isSome {n : Nat} (g : Graph n) (fuel : Nat)
    (self : Fin n → Finset (Fin n) → Option (Finset (Fin n) × List (Variable n)))
    (hsub : ∀ r vis out, self r vis = some out → vis ⊆ out.1)
    (hsome : ∀ r vis, r ∉ vis → n ≤ vis.card + fuel → (self r vis).isSome) :
    ∀ (l : List (Variable n)) (acc : Finset (Fin n) × List (Variable n)),
      n ≤ acc.1.card + fuel → (traverseInputs g self l acc).isSome := by
  intro l
  induction l with
  | nil => intro acc hcard; rfl
  | cons v rest ih =>
    intro acc hcard
    simp only [traverseInputs]
    by_cases hv : v.IsOutput = true
    · rw [if_pos hv]
      by_cases hmem : v.owner ∈ acc.1
      · rw [if_pos hmem]
        exact ih acc hcard
      · rw [if_neg hmem]
        cases hs : self v.owner acc.1 with
        | none =>
          have := hsome v.owner acc.1 hmem hcard
          rw [hs] at this
          cases this
        | some o =>
          have hq : acc.1.card ≤ o.1.card := Finset.card_le_card (hsub _ _ _ hs)
          exact ih (o.1, acc.2 ++ o.2) (by simp only; omega)
    · rw [if_neg hv]
      exact ih (acc.1, acc.2 ++ [v]) hcard

/-- The traversal completes on fuel `fuel` whenever `n` functions fit in
`visited.card + fuel`; in particular fuel `n` always suffices from a fresh
visited set. -/
theorem traverseF_isSome {n : Nat} (g : Graph n) (py preO : Bool) :
    ∀ (fuel : Nat) (root : Fin n) (visited : Finset (Fin n)),
      root ∉ visited → n ≤ visited.card + fuel →
      (traverseF g py preO fuel root visited).isSome := by
  intro fuel
  induction fuel with
  | zero =>
    intro root visited hroot hcard
    exact absurd hcard (by simpa using visited_card_lt hroot)
  | succ fuel ih =>
    intro root visited hroot hcard
    rw [traverseF]
    have hloop : (traverseInputs g (fun r vis => traverseF g py preO fuel r vis)
        (g.inputsOf root py) (insert root visited, [])).isSome :=
      traverseInputs_isSome g fuel _
        (fun r vis out ho =>
          (Finset.subset_insert r vis).trans (traverseF_sub g py preO fuel r vis out ho))
        (fun r vis hr hc => ih r vis hr hc)
        (g.inputsOf root py) (insert root visited, [])
        (by
          have hc : (insert root visited).card = visited.card + 1 :=
            Finset.card_insert_of_not_mem hroot
          simp only [hc]
          omega)
    cases hs : traverseInputs g (fun r vis => traverseF g py preO fuel r vis)
        (g.inputsOf root py) (insert root visited, []) with
    | none => rw [hs] at hloop; cases hloop
    | some o => rfl

/-- Unfolding equation for a traversal call with positive fuel. -/
theorem traverseF_succ_eq {n : Nat} (g : Graph n) (py preO : Bool)
    (fuel : Nat) (root : Fin n) (visited : Finset (Fin n)) :
    traverseF g py preO (fuel + 1) root visited =
      match traverseInputs g (fun r vis => traverseF g py preO fuel r vis)
          (g.inputsOf root py) (insert root visited, []) with
      | none => none
      | some out =>
        some (out.1,
          if preO then g.outputsOf root ++ out.2
          else out.2 ++ g.outputsOf root) := rfl

/-- The input loop is a congruence in the recursive visitor, for visitors
that agree on all visited sets the loop can actually reach. -/
theorem traverseInputs_congr {n : Nat} (g : Graph n)
    (self1 self2 : Fin n → Finset (Fin n) → Option (Finset (Fin n) × List (Variable n)))
    (hsub : ∀ r vis out, self1 r vis = some out → vis ⊆ out.1) :
    ∀ (l : List (Variable n)) (acc : Finset (Fin n) × List (Variable n)),
      (∀ r vis, acc.1 ⊆ vis → r ∉ vis → self1 r vis = self2 r vis) →
      traverseInputs g self1 l acc = traverseInputs g self2 l acc := by
  intro l
  induction l with
  | nil => intro acc hag; rfl
  | cons v rest ih =>
    intro acc hag
    simp only [traverseInputs]
    by_cases hv : v.IsOutput = true
    · simp only [if_pos hv]
      by_cases hmem : v.owner ∈ acc.1
      · simp only [if_pos hmem]
        exact ih acc hag
      · simp only [if_neg hmem]
        rw [← hag v.owner acc.1 (Finset.Subset.refl _) hmem]
        cases hs : self1 v.owner acc.1 with
        | none => rfl
        | some o =>
          exact ih (o.1, acc.2 ++ o.2)
            (fun r vis hsub' hr => hag r vis ((hsub _ _ _ hs).trans hsub') hr)
    · simp only [if_neg hv]
      exact ih (acc.1, acc.2 ++ [v]) hag

/-- With sufficient fuel, one more unit of fuel does not change the
traversal's result. -/
theorem traverseF_fuel_succ {n : Nat} (g : Graph n) (py preO : Bool) :
    ∀ (fuel : Nat) (root : Fin n) (visited : Finset (Fin n)),
      root ∉ visited → n ≤ visited.card + fuel →
      traverseF g py preO (fuel + 1) root visited =
        traverseF g py preO fuel root visited := by
  intro fuel
  induction fuel with
  | zero =>
    intro root visited hroot hcard
    exact absurd hcard (by simpa using visited_card_lt hroot)
  | succ fuel ih =>
    intro root visited hroot hcard
    rw [traverseF_succ_eq g py preO (fuel + 1), traverseF_succ_eq g py preO fuel]
    have hloop : traverseInputs g (fun r vis => traverseF g py preO (fuel + 1) r vis)
        (g.inputsOf root py) (insert root visited, []) =
        traverseInputs g (fun r vis => traverseF g py preO fuel r vis)
          (g.inputsOf root py) (insert root visited, []) :=
      traverseInputs_congr g _ _
        (fun r vis out ho =>
          (Finset.subset_insert r vis).trans
            (traverseF_sub g py preO (fuel + 1) r vis out ho))
        _ _
        (fun r vis hsub' hr => ih r vis hr (by
          have h1 : (insert root visited).card ≤ vis.card := Finset.card_le_card hsub'
          have h2 : (insert root visited).card = visited.card + 1 :=
            Finset.card_insert_of_not_mem hroot
          omega))
    rw [hloop]

/-- Result stability: starting from a fresh visited set, every fuel value
of at least `n` computes the same traversal result. -/
theorem traverseF_fuel_ge {n : Nat} (g : Graph n) (py preO : Bool)
    (root : Fin n) :
    ∀ fuel, n ≤ fuel → traverseF g py preO fuel root ∅ = traverseF g py preO n root ∅ := by
  intro fuel
  induction fuel with
  | zero =>
    intro h
    have hn : n = 0 := Nat.le_zero.mp h
    exact absurd root.isLt (by omega)
  | succ fuel ih =>
    intro h
    rcases Nat.lt_or_ge n (fuel + 1) with hlt | hge
    · have hf : n ≤ fuel := Nat.lt_succ_iff.mp hlt
      rw [traverseF_fuel_succ g py preO fuel root ∅ (Finset.not_mem_empty root)
        (by simpa using hf)]
      exact ih hf
    · have he : n = fuel + 1 := Nat.le_antisymm h hge
      subst he
      rfl

/-! ### The visited set is exactly the set of reachable functions -/

/-- Reachability composes. -/
theorem Reaches.trans {n : Nat} {g : Graph n} {py : Bool} {a b c : Fin n}
    (hab : Reaches g py a b) (hbc : Reaches g py b c) : Reaches g py a c := by
  induction hbc with
  | refl => exact hab
  | step _ hmem hout ih => exact Reaches.step ih hmem hout

/-- Everything the input loop adds to the visited set is reachable through
one of the Output variables in the list. -/
theorem traverseInputs_reach {n : Nat} (g : Graph n) (py : Bool)
    (self : Fin n → Finset (Fin n) → Option (Finset (Fin n) × List (Variable n)))
    (hreach : ∀ r vis out, self r vis = some out →
      ∀ f ∈ out.1, f ∈ vis ∨ Reaches g py r f) :
    ∀ (l : List (Variable n)) (acc out : Finset (Fin n) × List (Variable n)),
      traverseInputs g self l acc = some out →
      ∀ f ∈ out.1, f ∈ acc.1 ∨ ∃ v ∈ l, v.IsOutput = true ∧ Reaches g py v.owner f := by
  intro l
  induction l with
  | nil =>
    intro acc out h f hf
    simp only [traverseInputs, Option.some.injEq] at h
    subst h
    exact Or.inl hf
  | cons v rest ih =>
    intro acc out h f hf
    simp only [traverseInputs] at h
    by_cases hv : v.IsOutput = true
    · rw [if_pos hv] at h
      by_cases hmem : v.owner ∈ acc.1
      · rw [if_pos hmem] at h
        rcases ih acc out h f hf with h1 | ⟨w, hw, hwo, hwr⟩
        · exact Or.inl h1
        · exact Or.inr ⟨w, List.mem_cons_of_mem _ hw, hwo, hwr⟩
      · rw [if_neg hmem] at h
        cases hs : self v.owner acc.1 with
        | none => rw [hs] at h; cases h
        | some o =>
          rw [hs] at h
          rcases ih (o.1, acc.2 ++ o.2) out h f hf with h1 | ⟨w, hw, hwo, hwr⟩
          · rcases hreach _ _ _ hs f h1 with h2 | h2
            · exact Or.inl h2
            · exact Or.inr ⟨v, List.mem_cons_self _ _, hv, h2⟩
          · exact Or.inr ⟨w, List.mem_cons_of_mem _ hw, hwo, hwr⟩
    · rw [if_neg hv] at h
      rcases ih (acc.1, acc.2 ++ [v]) out h f hf with h1 | ⟨w, hw, hwo, hwr⟩
      · exact Or.inl h1
      · exact Or.inr ⟨w, List.mem_cons_of_mem _ hw, hwo, hwr⟩

/-- Everything a traversal call adds to the visited set is reachable from
its root. -/
theorem traverseF_reach {n : Nat} (g : Graph n) (py preO : Bool) :
    ∀ (fuel : Nat) (root : Fin n) (visited : Finset (Fin n)) out,
      traverseF g py preO fuel root visited = some out →
      ∀ f ∈ out.1, f ∈ visited ∨ Reaches g py root f := by
  intro fuel
  induction fuel with
  | zero => intro root visited out h; cases h
  | succ fuel ih =>
    intro root visited out h f hf
    rw [traverseF_succ_eq] at h
    cases hs : traverseInputs g (fun r vis => traverseF g py preO fuel r vis)
        (g.inputsOf root py) (insert root visited, []) with
    | none => rw [hs] at h; cases h
    | some o =>
      rw [hs] at h
      have h' : (o.1,
          if preO then g.outputsOf root ++ o.2 else o.2 ++ g.outputsOf root) = out :=
        Option.some.inj h
      subst h'
      rcases traverseInputs_reach g py _ (fun r vis o2 h2 => ih r vis o2 h2) _ _ _ hs f hf
        with h1 | ⟨w, hw, hwo, hwr⟩
      · rcases Finset.mem_insert.mp h1 with h2 | h2
        · exact Or.inr (by rw [h2]; exact Reaches.refl root)
        · exact Or.inl h2
      · exact Or.inr ((Reaches.step (Reaches.refl root) hw hwo).trans hwr)

/-- After the input loop completes, every function it newly visited has all
of its Output-input owners visited, and so does every Output variable in
the processed list. -/
theorem traverseInputs_closure {n : Nat} (g : Graph n) (py : Bool)
    (self : Fin n → Finset (Fin n) → Option (Finset (Fin n) × List (Variable n)))
    (hsub : ∀ r vis out, self r vis = some out → insert r vis ⊆ out.1)
    (hclos : ∀ r vis out, r ∉ vis → self r vis = some out →
      ∀ f ∈ out.1, f ∉ vis → ∀ v ∈ g.inputsOf f py, v.IsOutput = true → v.owner ∈ out.1) :
    ∀ (l : List (Variable n)) (acc out : Finset (Fin n) × List (Variable n)),
      traverseInputs g self l acc = some out →
      (∀ f ∈ out.1, f ∉ acc.1 →
        ∀ v ∈ g.inputsOf f py, v.IsOutput = true → v.owner ∈ out.1) ∧
      (∀ v ∈ l, v.IsOutput = true → v.owner ∈ out.1) := by
  intro l
  induction l with
  | nil =>
    intro acc out h
    simp only [traverseInputs, Option.some.injEq] at h
    subst h
    exact ⟨fun f hf hnf => absurd hf hnf, fun v hv => absurd hv (List.not_mem_nil v)⟩
  | cons v rest ih =>
    intro acc out h
    simp only [traverseInputs] at h
    by_cases hv : v.IsOutput = true
    · rw [if_pos hv] at h
      by_cases hmem : v.owner ∈ acc.1
      · rw [if_pos hmem] at h
        obtain ⟨c1, c2⟩ := ih acc out h
        have hsubrest : acc.1 ⊆ out.1 :=
          traverseInputs_sub g self
            (fun r vis o2 h2 => (Finset.subset_insert r vis).trans (hsub r vis o2 h2))
            rest acc out h
        refine ⟨c1, fun w hw hwo => ?_⟩
        rcases List.mem_cons.mp hw with h2 | h2
        · exact hsubrest (h2 ▸ hmem)
        · exact c2 w h2 hwo
      · rw [if_neg hmem] at h
        cases hs : self v.owner acc.1 with
        | none => rw [hs] at h; cases h
        | some o =>
          rw [hs] at h
          obtain ⟨c1, c2⟩ := ih (o.1, acc.2 ++ o.2) out h
          have hsubrest : o.1 ⊆ out.1 :=
            traverseInputs_sub g self
              (fun r vis o2 h2 => (Finset.subset_insert r vis).trans (hsub r vis o2 h2))
              rest (o.1, acc.2 ++ o.2) out h
          refine ⟨fun f hf hnf w hw hwo => ?_, fun w hw hwo => ?_⟩
          · by_cases hfo : f ∈ o.1
            · exact hsubrest (hclos v.owner acc.1 o hmem hs f hfo hnf w hw hwo)
            · exact c1 f hf hfo w hw hwo
          · rcases List.mem_cons.mp hw with h2 | h2
            · refine hsubrest ?_
              rw [h2]
              exact hsub v.owner acc.1 o hs (Finset.mem_insert_self _ _)
            · exact c2 w h2 hwo
    · rw [if_neg hv] at h
      obtain ⟨c1, c2⟩ := ih (acc.1, acc.2 ++ [v]) out h
      refine ⟨c1, fun w hw hwo => ?_⟩
      rcases List.mem_cons.mp hw with h2 | h2
      · exact absurd (h2 ▸ hwo) (by rw [h2] at hwo; exact fun _ => hv (h2 ▸ hwo))
      · exact c2 w h2 hwo

/-- After a traversal call completes, every newly visited function has all
of its Output-input owners visited. -/
theorem traverseF_closure {n : Nat} (g : Graph n) (py preO : Bool) :
    ∀ (fuel : Nat) (root : Fin n) (visited : Finset (Fin n)) out,
      root ∉ visited →
      traverseF g py preO fuel root visited = some out →
      ∀ f ∈ out.1, f ∉ visited →
        ∀ v ∈ g.inputsOf f py, v.IsOutput = true → v.owner ∈ out.1 := by
  intro fuel
  induction fuel with
  | zero => intro root visited out hroot h; cases h
  | succ fuel ih =>
    intro root visited out hroot h f hf hfvis v hv hvo
    rw [traverseF_succ_eq] at h
    cases hs : traverseInputs g (fun r vis => traverseF g py preO fuel r vis)
        (g.inputsOf root py) (insert root visited, []) with
    | none => rw [hs] at h; cases h
    | some o =>
      rw [hs] at h
      have h' : (o.1,
          if preO then g.outputsOf root ++ o.2 else o.2 ++ g.outputsOf root) = out :=
        Option.some.inj h
      subst h'
      obtain ⟨c1, c2⟩ := traverseInputs_closure g py _
        (fun r vis o2 h2 => traverseF_sub g py preO fuel r vis o2 h2)
        (fun r vis o2 hr h2 => ih r vis o2 hr h2)
        _ _ _ hs
      by_cases hfr : f = root
      · subst hfr
        exact c2 v hv hvo
      · exact c1 f hf
          (fun hmem2 => (Finset.mem_insert.mp hmem2).elim hfr hfvis) v hv hvo

/-- A fresh traversal visits exactly the functions reachable from the
root. -/
theorem traverseF_visited_iff {n : Nat} (g : Graph n) (py preO : Bool)
    (root : Fin n) (out : Finset (Fin n) × List (Variable n))
    (h : traverseF g py preO n root ∅ = some out) :
    ∀ f, f ∈ out.1 ↔ Reaches g py root f := by
  intro f
  constructor
  · intro hf
    rcases traverseF_reach g py preO n root ∅ out h f hf with h1 | h1
    · exact absurd h1 (Finset.not_mem_empty f)
    · exact h1
  · intro hr
    induction hr with
    | refl => exact traverseF_sub g py preO n root ∅ out h (Finset.mem_insert_self _ _)
    | step _ hmem hout ih =>
      exact traverseF_closure g py preO n root ∅ out (Finset.not_mem_empty root) h _ ih
        (Finset.not_mem_empty _) _ hmem hout

/-! ### The trace as a multiset: what the functor is invoked on -/

/-- Splitting a sum over a difference of nested sets. -/
theorem sum_sdiff_chain {α M : Type} [DecidableEq α] [AddCommMonoid M]
    {s t u : Finset α} (hst : s ⊆ t) (htu : t ⊆ u) (f : α → M) :
    ∑ i ∈ u \ s, f i = (∑ i ∈ t \ s, f i) + (∑ i ∈ u \ t, f i) := by
  have hdisj : Disjoint (u \ t) (t \ s) :=
    Finset.disjoint_left.mpr
      (fun a ha hb => (Finset.mem_sdiff.mp ha).2 (Finset.mem_sdiff.mp hb).1)
  have hun : (u \ t) ∪ (t \ s) = u \ s := sdiff_sup_sdiff_cancel htu hst
  rw [← hun, Finset.sum_union hdisj, add_comm]

/-- The trace produced by the input loop: the non-Output variables of the
list plus one `nodeTrace` per newly visited function. -/
theorem traverseInputs_trace {n : Nat} (g : Graph n) (py : Bool)
    (self : Fin n → Finset (Fin n) → Option (Finset (Fin n) × List (Variable n)))
    (hsub : ∀ r vis out, self r vis = some out → insert r vis ⊆ out.1)
    (htr : ∀ r vis out, r ∉ vis → self r vis = some out →
      (out.2 : Multiset (Variable n)) = ∑ f ∈ out.1 \ vis, nodeTrace g py f) :
    ∀ (l : List (Variable n)) (acc out : Finset (Fin n) × List (Variable n)),
      traverseInputs g self l acc = some out →
      (out.2 : Multiset (Variable n)) =
        (acc.2 : Multiset (Variable n)) +
          ((l.filter (fun v => !v.IsOutput)) : Multiset (Variable n)) +
          ∑ f ∈ out.1 \ acc.1, nodeTrace g py f := by
  intro l
  induction l with
  | nil =>
    intro acc out h
    simp only [traverseInputs, Option.some.injEq] at h
    subst h
    simp
  | cons v rest ih =>
    intro acc out h
    simp only [traverseInputs] at h
    by_cases hv : v.IsOutput = true
    · rw [if_pos hv] at h
      have hfil : (v :: rest).filter (fun w => !w.IsOutput) =
          rest.filter (fun w => !w.IsOutput) := by
        simp [List.filter_cons, hv]
      by_cases hmem : v.owner ∈ acc.1
      · rw [if_pos hmem] at h
        rw [hfil]
        exact ih acc out h
      · rw [if_neg hmem] at h
        cases hs : self v.owner acc.1 with
        | none => rw [hs] at h; cases h
        | some o =>
          rw [hs] at h
          have hrec := ih (o.1, acc.2 ++ o.2) out h
          have hself := htr v.owner acc.1 o hmem hs
          have hao : acc.1 ⊆ o.1 :=
            (Finset.subset_insert _ _).trans (hsub _ _ _ hs)
          have hou : o.1 ⊆ out.1 :=
            traverseInputs_sub g self
              (fun r vis o2 h2 => (Finset.subset_insert r vis).trans (hsub r vis o2 h2))
              rest (o.1, acc.2 ++ o.2) out h
          rw [hfil]
          rw [sum_sdiff_chain hao hou]
          simp only [← Multiset.coe_add] at hrec
          rw [hrec, hself]
          abel
    · rw [if_neg hv] at h
      have hrec := ih (acc.1, acc.2 ++ [v]) out h
      have hfil : (v :: rest).filter (fun w => !w.IsOutput) =
          v :: rest.filter (fun w => !w.IsOutput) := by
        simp [List.filter_cons, hv]
      rw [hfil]
      simp only [← Multiset.coe_add] at hrec
      rw [hrec]
      simp only [← Multiset.cons_coe, ← Multiset.singleton_add, Multiset.coe_singleton,
        Multiset.coe_nil]
      abel

/-- The set difference `s \ visited` when `root ∈ s` and `root ∉ visited`:
`root` plus what is beyond `insert root visited`. -/
theorem sdiff_insert_split {n : Nat} {s visited : Finset (Fin n)} {root : Fin n}
    (hmem : root ∈ s) (hvis : root ∉ visited) :
    s \ visited = insert root (s \ insert root visited) := by
  ext x
  simp only [Finset.mem_sdiff, Finset.mem_insert]
  constructor
  · rintro ⟨hx, hnx⟩
    by_cases hxr : x = root
    · exact Or.inl hxr
    · exact Or.inr ⟨hx, fun hh => hh.elim hxr hnx⟩
  · rintro (hxr | ⟨hx, hnx⟩)
    · exact ⟨hxr ▸ hmem, hxr ▸ hvis⟩
    · exact ⟨hx, fun hh => hnx (Or.inr hh)⟩

/-- The trace of a completed traversal call is exactly one `nodeTrace` per
newly visited function (as a multiset). -/
theorem traverseF_trace {n : Nat} (g : Graph n) (py preO : Bool) :
    ∀ (fuel : Nat) (root : Fin n) (visited : Finset (Fin n)) out,
      root ∉ visited →
      traverseF g py preO fuel root visited = some out →
      (out.2 : Multiset (Variable n)) = ∑ f ∈ out.1 \ visited, nodeTrace g py f := by
  intro fuel
  induction fuel with
  | zero => intro root visited out hroot h; cases h
  | succ fuel ih =>
    intro root visited out hroot h
    rw [traverseF_succ_eq] at h
    cases hs : traverseInputs g (fun r vis => traverseF g py preO fuel r vis)
        (g.inputsOf root py) (insert root visited, []) with
    | none => rw [hs] at h; cases h
    | some o =>
      rw [hs] at h
      have h' : (o.1,
          if preO then g.outputsOf root ++ o.2 else o.2 ++ g.outputsOf root) = out :=
        Option.some.inj h
      subst h'
      have hloop := traverseInputs_trace g py _
        (fun r vis o2 h2 => traverseF_sub g py preO fuel r vis o2 h2)
        (fun r vis o2 hr h2 => ih r vis o2 hr h2)
        _ _ _ hs
      simp only [Multiset.coe_nil, zero_add] at hloop
      have hroot_mem : root ∈ o.1 :=
        traverseInputs_sub g _
          (fun r vis o2 h2 =>
            (Finset.subset_insert r vis).trans (traverseF_sub g py preO fuel r vis o2 h2))
          _ _ _ hs (Finset.mem_insert_self _ _)
      have hsplit := sdiff_insert_split hroot_mem hroot (s := o.1)
      have hnotmem : root ∉ o.1 \ insert root visited := by
        simp [Finset.mem_sdiff]
      show ((if preO then g.outputsOf root ++ o.2 else o.2 ++ g.outputsOf root : List _) :
          Multiset (Variable n)) = _
      have houter : ((if preO then g.outputsOf root ++ o.2
          else o.2 ++ g.outputsOf root : List _) : Multiset (Variable n)) =
          (g.outputsOf root : Multiset (Variable n)) + (o.2 : Multiset (Variable n)) := by
        by_cases hpre : preO = true
        · simp [hpre, ← Multiset.coe_add]
        · simp [hpre, ← Multiset.coe_add, add_comm]
      rw [houter, hloop, hsplit, Finset.sum_insert hnotmem]
      simp only [nodeTrace]
      abel

/-! ### The visited set does not depend on the pre/post-order flag -/

/-- The input loop's success and final visited set only depend on the
recursive visitor's success and visited sets. -/
theorem traverseInputs_fst {n : Nat} (g : Graph n)
    (self1 self2 : Fin n → Finset (Fin n) → Option (Finset (Fin n) × List (Variable n)))
    (hag : ∀ r vis, r ∉ vis → (self1 r vis).map Prod.fst = (self2 r vis).map Prod.fst) :
    ∀ (l : List (Variable n)) (acc1 acc2 : Finset (Fin n) × List (Variable n)),
      acc1.1 = acc2.1 →
      (traverseInputs g self1 l acc1).map Prod.fst =
        (traverseInputs g self2 l acc2).map Prod.fst := by
  intro l
  induction l with
  | nil =>
    intro acc1 acc2 hacc
    simp only [traverseInputs, Option.map_some', hacc]
  | cons v rest ih =>
    intro acc1 acc2 hacc
    simp only [traverseInputs]
    by_cases hv : v.IsOutput = true
    · simp only [if_pos hv]
      by_cases hmem : v.owner ∈ acc1.1
      · rw [if_pos hmem, if_pos (hacc ▸ hmem)]
        exact ih acc1 acc2 hacc
      · rw [if_neg hmem, if_neg (hacc ▸ hmem)]
        have hself := hag v.owner acc1.1 hmem
        rw [hacc] at hself
        rw [hacc]
        cases hs1 : self1 v.owner acc2.1 with
        | none =>
          cases hs2 : self2 v.owner acc2.1 with
          | none => rfl
          | some o2 => rw [hs1, hs2] at hself; cases hself
        | some o1 =>
          cases hs2 : self2 v.owner acc2.1 with
          | none => rw [hs1, hs2] at hself; cases hself
          | some o2 =>
            rw [hs1, hs2] at hself
            simp only [Option.map_some', Option.some.injEq] at hself
            exact ih (o1.1, acc1.2 ++ o1.2) (o2.1, acc2.2 ++ o2.2) hself
    · simp only [if_neg hv]
      exact ih (acc1.1, acc1.2 ++ [v]) (acc2.1, acc2.2 ++ [v]) hacc

/-- The final visited set of a traversal does not depend on the pre/post
flag (nor does its success). -/
theorem traverseF_fst {n : Nat} (g : Graph n) (py pre1 pre2 : Bool) :
    ∀ (fuel : Nat) (root : Fin n) (visited : Finset (Fin n)),
      (traverseF g py pre1 fuel root visited).map Prod.fst =
        (traverseF g py pre2 fuel root visited).map Prod.fst := by
  intro fuel
  induction fuel with
  | zero => intro root visited; rfl
  | succ fuel ih =>
    intro root visited
    rw [traverseF_succ_eq, traverseF_succ_eq]
    have hloop := traverseInputs_fst g
      (fun r vis => traverseF g py pre1 fuel r vis)
      (fun r vis => traverseF g py pre2 fuel r vis)
      (fun r vis _ => ih r vis)
      (g.inputsOf root py) (insert root visited, []) (insert root visited, []) rfl
    cases hs1 : traverseInputs g (fun r vis => traverseF g py pre1 fuel r vis)
        (g.inputsOf root py) (insert root visited, []) with
    | none =>
      cases hs2 : traverseInputs g (fun r vis => traverseF g py pre2 fuel r vis)
          (g.inputsOf root py) (insert root visited, []) with
      | none => rfl
      | some o2 => rw [hs1, hs2] at hloop; cases hloop
    | some o1 =>
      cases hs2 : traverseInputs g (fun r vis => traverseF g py pre2 fuel r vis)
          (g.inputsOf root py) (insert root visited, []) with
      | none => rw [hs1, hs2] at hloop; cases hloop
      | some o2 =>
        rw [hs1, hs2] at hloop
        simp only [Option.map_some', Option.some.injEq] at hloop
        simp only [Option.map_some', Option.some.injEq]
        exact hloop

/-! ### First-seen deduplication: support for `DetermineInputs` -/

/-- Membership in a first-seen deduplication. -/
theorem dedupKeepFirst_mem {n : Nat} :
    ∀ (l : List (Variable n)) (seen : Finset (Variable n)) (v : Variable n),
      v ∈ dedupKeepFirst seen l ↔ v ∈ l ∧ v ∉ seen := by
  intro l
  induction l with
  | nil => intro seen v; simp [dedupKeepFirst]
  | cons w rest ih =>
    intro seen v
    rw [dedupKeepFirst]
    by_cases hw : w ∈ seen
    · rw [if_pos hw, ih]
      constructor
      · rintro ⟨hv, hs⟩
        exact ⟨List.mem_cons_of_mem _ hv, hs⟩
      · rintro ⟨hv, hs⟩
        rcases List.mem_cons.mp hv with rfl | hv2
        · exact absurd hw hs
        · exact ⟨hv2, hs⟩
    · rw [if_neg hw]
      constructor
      · intro hv
        rcases List.mem_cons.mp hv with rfl | hv2
        · exact ⟨List.mem_cons_self _ _, hw⟩
        · obtain ⟨h1, h2⟩ := (ih _ _).mp hv2
          exact ⟨List.mem_cons_of_mem _ h1,
            fun hs => h2 (Finset.mem_insert_of_mem hs)⟩
      · rintro ⟨hv, hs⟩
        rcases List.mem_cons.mp hv with rfl | hv2
        · exact List.mem_cons_self _ _
        · by_cases hvw : v = w
          · exact hvw ▸ List.mem_cons_self _ _
          · exact List.mem_cons_of_mem _
              ((ih _ _).mpr ⟨hv2, by simp [Finset.mem_insert, hvw, hs]⟩)

/-- A first-seen deduplication has no duplicates. -/
theorem dedupKeepFirst_nodup {n : Nat} :
    ∀ (l : List (Variable n)) (seen : Finset (Variable n)),
      (dedupKeepFirst seen l).Nodup := by
  intro l
  induction l with
  | nil => intro seen; simp [dedupKeepFirst]
  | cons w rest ih =>
    intro seen
    rw [dedupKeepFirst]
    by_cases hw : w ∈ seen
    · rw [if_pos hw]; exact ih seen
    · rw [if_neg hw]
      refine List.Nodup.cons ?_ (ih _)
      intro hmem
      exact ((dedupKeepFirst_mem _ _ _).mp hmem).2 (Finset.mem_insert_self _ _)

/-- The `inputs`/`uniqueInputs` accumulator loop of `DetermineInputs`
computes a first-seen deduplication of the non-Output variables. -/
theorem determineInputs_foldl {n : Nat} :
    ∀ (tr out : List (Variable n)) (seen : Finset (Variable n)),
      (tr.foldl
        (fun st v =>
          if v.IsOutput = false ∧ v ∉ st.2 then (st.1 ++ [v], insert v st.2) else st)
        (out, seen)).1 =
      out ++ dedupKeepFirst seen (tr.filter (fun v => !v.IsOutput)) := by
  intro tr
  induction tr with
  | nil => intro out seen; simp [dedupKeepFirst]
  | cons v rest ih =>
    intro out seen
    rw [List.foldl_cons]
    by_cases hv : v.IsOutput = true
    · have hcond : ¬(v.IsOutput = false ∧ v ∉ seen) := by simp [hv]
      rw [if_neg hcond]
      have hfil : (v :: rest).filter (fun w => !w.IsOutput) =
          rest.filter (fun w => !w.IsOutput) := by
        simp [List.filter_cons, hv]
      rw [hfil]
      exact ih out seen
    · have hv' : v.IsOutput = false := by
        cases hb : v.IsOutput
        · rfl
        · exact absurd hb hv
      have hfil : (v :: rest).filter (fun w => !w.IsOutput) =
          v :: rest.filter (fun w => !w.IsOutput) := by
        simp [List.filter_cons, hv']
      rw [hfil, dedupKeepFirst]
      by_cases hseen : v ∈ seen
      · have hcond : ¬(v.IsOutput = false ∧ v ∉ seen) := by simp [hseen]
        rw [if_neg hcond, if_pos hseen]
        exact ih out seen
      · have hcond : v.IsOutput = false ∧ v ∉ seen := ⟨hv', hseen⟩
        rw [if_pos hcond, if_neg hseen, ih (out ++ [v]) (insert v seen),
          List.append_assoc]
        rfl

/-! ### The storage-clearing loop: support for the erased-flag claims -/

/-- The effect of the storage-clearing fold on each erased flag. -/
theorem clear_foldl_erased :
    ∀ (refs : List (Option Nat)) (er : Nat → Bool) (i : Nat),
      (refs.foldl
        (fun er ref =>
          match ref with
          | some i => fun j => if j = i then true else er j
          | none => er)
        er) i = if some i ∈ refs then true else er i := by
  intro refs
  induction refs with
  | nil => intro er i; simp
  | cons r rest ih =>
    intro er i
    rw [List.foldl_cons]
    cases r with
    | none =>
      rw [ih]
      simp [List.mem_cons]
    | some j =>
      rw [ih]
      by_cases hij : i = j
      · subst hij
        simp [List.mem_cons]
      · simp [List.mem_cons, hij]

/-! ### Shape of a single traversal call in each mode -/

/-- A pre-order traversal call emits the root's outputs first. -/
theorem traverseF_pre_shape {n : Nat} (g : Graph n) (py : Bool) (fuel : Nat)
    (root : Fin n) (visited : Finset (Fin n))
    (out : Finset (Fin n) × List (Variable n))
    (h : traverseF g py true (fuel + 1) root visited = some out) :
    ∃ rest, out.2 = g.outputsOf root ++ rest := by
  rw [traverseF_succ_eq] at h
  cases hs : traverseInputs g (fun r vis => traverseF g py true fuel r vis)
      (g.inputsOf root py) (insert root visited, []) with
  | none => rw [hs] at h; cases h
  | some o =>
    rw [hs] at h
    have h' : (o.1, if (true : Bool) then g.outputsOf root ++ o.2
        else o.2 ++ g.outputsOf root) = out := Option.some.inj h
    subst h'
    exact ⟨o.2, by simp⟩

/-- A post-order traversal call emits the root's outputs last. -/
theorem traverseF_post_shape {n : Nat} (g : Graph n) (py : Bool) (fuel : Nat)
    (root : Fin n) (visited : Finset (Fin n))
    (out : Finset (Fin n) × List (Variable n))
    (h : traverseF g py false (fuel + 1) root visited = some out) :
    ∃ rest, out.2 = rest ++ g.outputsOf root := by
  rw [traverseF_succ_eq] at h
  cases hs : traverseInputs g (fun r vis => traverseF g py false fuel r vis)
      (g.inputsOf root py) (insert root visited, []) with
  | none => rw [hs] at h; cases h
  | some o =>
    rw [hs] at h
    have h' : (o.1, if (false : Bool) then g.outputsOf root ++ o.2
        else o.2 ++ g.outputsOf root) = out := Option.some.inj h
    subst h'
    exact ⟨o.2, by simp⟩

/-- One step of the `OnPlaceholdersReplaced` loop. -/
theorem onPlaceholdersReplaced_cons {n : Nat} (g : Graph n)
    (placeholderReplacements : Variable n → Variable n) (p : Variable n)
    (rest : List (Variable n)) (c : CompositeFunction n) :
    OnPlaceholdersReplaced g placeholderReplacements (p :: rest) c =
      (if (placeholderReplacements p).IsOutput then
        (Collect g (placeholderReplacements p).owner).map
          (fun s => { c with
            m_allPrimitiveFunctions := c.m_allPrimitiveFunctions ∪ s })
      else pure c).bind
        (fun c1 => OnPlaceholdersReplaced g placeholderReplacements rest c1) := by
  rw [OnPlaceholdersReplaced, List.foldlM_cons]
  rfl

/-! ### Claim theorems and witnesses -/

/-- C1: for every root operation, the owned operation set
`m_allPrimitiveFunctions` of the composite returned by `Create(root)`
equals exactly the set of operations reachable from the root by following
Output-variable ownership edges (the transitive closure computed by
`Collect` via pre-order traversal); being a `Finset`, each operation shared
by several paths (diamond sharing) appears in it exactly once. -/
theorem create_owned_set_eq_reachable {n : Nat} (g : Graph n) (root : Fin n)
    (comp : CompositeFunction n) (h : Create g root = some comp) :
    ∀ f : Fin n, f ∈ comp.m_allPrimitiveFunctions ↔ Reaches g false root f := by
  cases ht : traverseF g false true n root ∅ with
  | none =>
    simp only [Create, Collect, ht, Option.map_none'] at h
    exact Option.noConfusion h
  | some out =>
    simp only [Create, Collect, ht, Option.map_some', Option.some.injEq] at h
    subst h
    exact fun f => traverseF_visited_iff g false true root out ht f

/-- C1 witness: in the diamond example, function 2 is owned and
reachable. -/
theorem create_owned_set_eq_reachable_witness :
    (2 : Fin 4) ∈ diamondOwned ↔ Reaches diamondGraph false 0 2 :=
  create_owned_set_eq_reachable diamondGraph 0 ⟨0, diamondOwned⟩ (by decide) 2

/-- C3: the input list computed by `DetermineInputs` is exactly the
first-seen deduplication of the non-Output variables in the pre-order
traversal trace: every non-Output variable encountered occurs in it, it has
no duplicates, and each variable sits at the position of its first
encounter (`dedupKeepFirst` keeps first occurrences in trace order). -/
theorem determine_inputs_first_seen {n : Nat} (g : Graph n) (py : Bool)
    (root : Fin n) (vis : Finset (Fin n)) (tr : List (Variable n))
    (h : TraverseVariables g py true root = some (vis, tr)) :
    DetermineInputs g root py =
      some (dedupKeepFirst ∅ (tr.filter (fun v => !v.IsOutput))) ∧
    (dedupKeepFirst ∅ (tr.filter (fun v => !v.IsOutput))).Nodup ∧
    ∀ v : Variable n,
      v ∈ dedupKeepFirst ∅ (tr.filter (fun v => !v.IsOutput)) ↔
        v ∈ tr ∧ v.IsOutput = false := by
  have h' : traverseF g py true n root ∅ = some (vis, tr) := h
  refine ⟨?_, dedupKeepFirst_nodup _ _, fun v => ?_⟩
  · simp only [DetermineInputs, h', Option.map_some', Option.some.injEq]
    rw [determineInputs_foldl tr [] ∅]
    simp
  · rw [dedupKeepFirst_mem]
    simp [List.mem_filter]

/-- C3 witness: the diamond example's inputs are the parameter and the
shared input, in first-encounter order. -/
theorem determine_inputs_first_seen_witness :
    DetermineInputs diamondGraph 0 false =
      some (dedupKeepFirst ∅ (diamondTrace.filter (fun v => !v.IsOutput))) :=
  (determine_inputs_first_seen diamondGraph false 0 diamondOwned diamondTrace
    (by decide)).1

/-- C5: Backward fails with the stale-handle usage error when any captured
Parameter timestamp differs from the Parameter's current timestamp (the
Parameter was mutated after the Forward call that produced the handle), and
succeeds exactly when every captured timestamp is current. -/
theorem backward_stale_handle {n : Nat} (state : CNTKBackPropState n)
    (currentTimeStamps : Variable n → Nat) :
    (Backward state currentTimeStamps = Except.ok () ↔
      ∀ pt ∈ state.m_backpropRootsForwardTimeStamps,
        currentTimeStamps pt.1 = pt.2) ∧
    ((∃ pt ∈ state.m_backpropRootsForwardTimeStamps,
        currentTimeStamps pt.1 ≠ pt.2) →
      Backward state currentTimeStamps =
        Except.error EvalError.staleBackpropHandle) := by
  constructor
  · constructor
    · intro hok pt hpt
      by_cases hall : state.m_backpropRootsForwardTimeStamps.all
          (fun pt => currentTimeStamps pt.1 == pt.2) = true
      · exact beq_iff_eq.mp (List.all_eq_true.mp hall pt hpt)
      · rw [Backward, if_neg hall] at hok
        exact Except.noConfusion hok
    · intro hall
      rw [Backward, if_pos (List.all_eq_true.mpr
        (fun pt hpt => beq_iff_eq.mpr (hall pt hpt)))]
  · rintro ⟨pt, hpt, hne⟩
    rw [Backward, if_neg (fun hall =>
      hne (beq_iff_eq.mp (List.all_eq_true.mp hall pt hpt)))]

/-- C5 witness: a handle that captured timestamp 5 fails after the
parameter advanced to timestamp 6. -/
theorem backward_stale_handle_witness :
    Backward tsState tsCurrentMutated = Except.error EvalError.staleBackpropHandle :=
  (backward_stale_handle tsState tsCurrentMutated).2 (by decide)

/-- C6: clearing the storage references erases every still-live weak
reference recorded from the previous round (skipping expired ones), leaves
every untracked storage slot untouched, and leaves the tracked reference
list empty. -/
theorem clear_storage_references (s : StorageState) :
    (ClearExistingOutputOrGradientStorageReferences s).m_existingNetworkStorageReferences
        = [] ∧
    (∀ i : Nat, some i ∈ s.m_existingNetworkStorageReferences →
      (ClearExistingOutputOrGradientStorageReferences s).erased i = true) ∧
    (∀ i : Nat, some i ∉ s.m_existingNetworkStorageReferences →
      (ClearExistingOutputOrGradientStorageReferences s).erased i = s.erased i) := by
  refine ⟨rfl, fun i hmem => ?_, fun i hmem => ?_⟩
  · show (s.m_existingNetworkStorageReferences.foldl _ s.erased) i = true
    rw [clear_foldl_erased, if_pos hmem]
  · show (s.m_existingNetworkStorageReferences.foldl _ s.erased) i = s.erased i
    rw [clear_foldl_erased, if_neg hmem]

/-- C6 witness: the live reference to storage slot 0 is erased. -/
theorem clear_storage_references_witness :
    (ClearExistingOutputOrGradientStorageReferences exampleStorage).erased 0 = true :=
  (clear_storage_references exampleStorage).2.1 0 (by decide)

/-- C8: TraverseVariables terminates on every finite operation graph,
including graphs with diamond sharing: every fuel of at least `n` (the
number of function objects) computes the same result as fuel `n`, and that
result is a completed traversal. -/
theorem traverse_terminates {n : Nat} (g : Graph n) (py preO : Bool)
    (root : Fin n) (fuel : Nat) (hfuel : n ≤ fuel) :
    traverseF g py preO fuel root ∅ = TraverseVariables g py preO root ∧
    (TraverseVariables g py preO root).isSome :=
  ⟨traverseF_fuel_ge g py preO root fuel hfuel,
   traverseF_isSome g py preO n root ∅ (Finset.not_mem_empty root) (by simp)⟩

/-- C8 witness: the diamond graph's traversal at fuel 9 agrees with the
stable result and completes. -/
theorem traverse_terminates_witness :
    traverseF diamondGraph false true 9 0 ∅ = TraverseVariables diamondGraph false true 0 ∧
    (TraverseVariables diamondGraph false true 0).isSome :=
  traverse_terminates diamondGraph false true 0 9 (by decide)

/-- C9: deserialization restores stateful-node state according to the
version tag: documents of version at most 2 use the side-table restoration
pass, version 3 (the current `s_serializationVersion`) restores inline from
the attributes, and any newer version fails with an unsupported-version
format error. -/
theorem restore_state_version_dispatch (version : Nat) :
    (version ≤ 2 → restoreStatefulFunctionsMode version =
      Except.ok StateRestoration.sideTablePass) ∧
    (version = 3 → restoreStatefulFunctionsMode version =
      Except.ok StateRestoration.inlineAttributes) ∧
    (s_serializationVersion < version → restoreStatefulFunctionsMode version =
      Except.error (EvalError.unsupportedVersion version)) := by
  refine ⟨fun h2 => ?_, fun h3 => ?_, fun hgt => ?_⟩
  · rw [restoreStatefulFunctionsMode,
      if_neg (by simp only [s_serializationVersion]; omega), if_pos h2]
  · subst h3
    rfl
  · rw [restoreStatefulFunctionsMode, if_pos hgt]

/-- C9 witness: version 4 is newer than the supported version 3 and is
rejected. -/
theorem restore_state_version_dispatch_witness :
    restoreStatefulFunctionsMode 4 = Except.error (EvalError.unsupportedVersion 4) :=
  (restore_state_version_dispatch 4).2.2 (by decide)

/-- C10: the inherited vector-based Forward overload unconditionally fails
with `NOT_IMPLEMENTED` and never performs any evaluation, for every
combination of arguments. -/
theorem forward_vector_not_implemented {n : Nat} (c : CompositeFunction n)
    (inputValues : List Value) (outputs : List (Variable n × Value))
    (computeDevice : DeviceDescriptor)
    (outputsToRetainBackwardStateFor : List (Variable n)) :
    ForwardVectorOverload c inputValues outputs computeDevice
      outputsToRetainBackwardStateFor = Except.error EvalError.notImplemented :=
  rfl

/-- C2 as stated is false on the code: in `shareGraph` the non-Output
variable `sIn` is consumed as input by two different operations, and
TraverseVariables invokes the visitor on it twice — in pre-order and in
post-order mode alike — not exactly once. -/
theorem traverse_visits_shared_input_twice :
    (TraverseVariables shareGraph false true 0).map (fun p => p.2.count sIn) = some 2 ∧
    (TraverseVariables shareGraph false false 0).map (fun p => p.2.count sIn) = some 2 ∧
    (2 : Nat) ≠ 1 :=
  ⟨by decide, by decide, by decide⟩

/-- C2 amended: on a wellformed graph, TraverseVariables invokes the
visitor on each Output variable of a visited (reachable) operation exactly
once, on a non-Output variable once per occurrence of that variable as an
input of a visited operation (so a variable consumed by several operations
is visited several times), and it skips no variable: every input of every
visited operation is passed to the visitor at least once, in both pre-order
and post-order modes. -/
theorem traverse_visit_counts {n : Nat} (g : Graph n) (hwf : g.Wf)
    (py preO : Bool) (root : Fin n) (vis : Finset (Fin n))
    (tr : List (Variable n))
    (h : TraverseVariables g py preO root = some (vis, tr)) :
    (∀ f ∈ vis, ∀ v ∈ g.outputsOf f, tr.count v = 1) ∧
    (∀ v : Variable n, v.IsOutput = false →
      tr.count v = ∑ f ∈ vis, (g.inputsOf f py).count v) ∧
    (∀ f ∈ vis, ∀ v ∈ g.inputsOf f py, v ∈ tr) := by
  obtain ⟨hnodup, howner, hkind, hmemout⟩ := hwf
  have h' : traverseF g py preO n root ∅ = some (vis, tr) := h
  have htr : (tr : Multiset (Variable n)) = ∑ f ∈ vis, nodeTrace g py f := by
    have hq := traverseF_trace g py preO n root ∅ (vis, tr)
      (Finset.not_mem_empty root) h'
    simpa [Finset.sdiff_empty] using hq
  have hcount : ∀ v : Variable n, tr.count v =
      ∑ f ∈ vis, ((g.outputsOf f).count v +
        ((g.inputsOf f py).filter (fun w => !w.IsOutput)).count v) := by
    intro v
    rw [← Multiset.coe_count, htr, Multiset.count_sum']
    refine Finset.sum_congr rfl (fun f hf => ?_)
    rw [nodeTrace, Multiset.count_add, Multiset.coe_count, Multiset.coe_count]
  refine ⟨?_, ?_, ?_⟩
  · intro f0 hf0 v hv
    have hvout : v.IsOutput = true := hkind f0 v hv
    have hown : v.owner = f0 := howner f0 v hv
    have hside : ∀ b ∈ vis, b ≠ f0 →
        (g.outputsOf b).count v +
          ((g.inputsOf b py).filter (fun w => !w.IsOutput)).count v = 0 := by
      intro b hb hbne
      have hc1 : (g.outputsOf b).count v = 0 :=
        List.count_eq_zero.mpr
          (fun hmem => hbne ((howner b v hmem).symm.trans hown))
      have hc2 : ((g.inputsOf b py).filter (fun w => !w.IsOutput)).count v = 0 :=
        List.count_eq_zero.mpr (fun hmem => by
          have hp := (List.mem_filter.mp hmem).2
          rw [hvout] at hp
          cases hp)
      omega
    rw [hcount v, Finset.sum_eq_single_of_mem f0 hf0 hside]
    have hc1 : (g.outputsOf f0).count v = 1 :=
      List.count_eq_one_of_mem (hnodup f0) hv
    have hc2 : ((g.inputsOf f0 py).filter (fun w => !w.IsOutput)).count v = 0 :=
      List.count_eq_zero.mpr (fun hmem => by
        have hp := (List.mem_filter.mp hmem).2
        rw [hvout] at hp
        cases hp)
    omega
  · intro v hvfalse
    rw [hcount v]
    refine Finset.sum_congr rfl (fun f hf => ?_)
    have hc1 : (g.outputsOf f).count v = 0 :=
      List.count_eq_zero.mpr (fun hmem => by
        have hp := hkind f v hmem
        rw [hvfalse] at hp
        cases hp)
    have hc2 : ((g.inputsOf f py).filter (fun w => !w.IsOutput)).count v =
        (g.inputsOf f py).count v :=
      List.count_filter (by rw [hvfalse]; rfl)
    omega
  · intro f hf v hv
    by_cases hvo : v.IsOutput = true
    · have howin : v.owner ∈ vis :=
        traverseF_closure g py preO n root ∅ (vis, tr) (Finset.not_mem_empty root)
          h' f hf (Finset.not_mem_empty f) v hv hvo
      have hvmem : v ∈ g.outputsOf v.owner := hmemout f py v hv hvo
      have hmem : v ∈ (tr : Multiset (Variable n)) := by
        rw [htr]
        refine Multiset.mem_sum.mpr ⟨v.owner, howin, ?_⟩
        rw [nodeTrace]
        exact Multiset.mem_add.mpr (Or.inl (Multiset.mem_coe.mpr hvmem))
      exact Multiset.mem_coe.mp hmem
    · have hvf : v.IsOutput = false := by
        cases hb : v.IsOutput
        · rfl
        · exact absurd hb hvo
      have hmem : v ∈ (tr : Multiset (Variable n)) := by
        rw [htr]
        refine Multiset.mem_sum.mpr ⟨f, hf, ?_⟩
        rw [nodeTrace]
        refine Multiset.mem_add.mpr (Or.inr ?_)
        exact Multiset.mem_coe.mpr (List.mem_filter.mpr ⟨hv, by rw [hvf]; rfl⟩)
      exact Multiset.mem_coe.mp hmem

/-- C2 amended witness: in the diamond example, the output of function 1 is
visited exactly once. -/
theorem traverse_visit_counts_witness :
    diamondTrace.count dOut1 = 1 :=
  (traverse_visit_counts diamondGraph (by decide) false true 0 diamondOwned
    diamondTrace (by decide)).1 1 (by decide) dOut1 (by decide)

/-- C4: after `OnPlaceholdersReplaced`, the owned operation set is the
union of the previous owned set with the full transitive closure collected
from the owner of each replacement that is an Output variable: every
operation of a newly spliced sub-graph is owned, no previously owned
operation is removed, and the root is unchanged. -/
theorem on_placeholders_replaced_owned {n : Nat} (g : Graph n)
    (placeholderReplacements : Variable n → Variable n)
    (replacedPlaceholders : List (Variable n)) (c c' : CompositeFunction n)
    (h : OnPlaceholdersReplaced g placeholderReplacements replacedPlaceholders c
      = some c') :
    c'.rootFunction = c.rootFunction ∧
    ∀ f : Fin n, f ∈ c'.m_allPrimitiveFunctions ↔
      f ∈ c.m_allPrimitiveFunctions ∨
        ∃ p ∈ replacedPlaceholders, (placeholderReplacements p).IsOutput = true ∧
          Reaches g false (placeholderReplacements p).owner f := by
  induction replacedPlaceholders generalizing c with
  | nil =>
    have h' : c = c' := Option.some.inj h
    subst h'
    exact ⟨rfl, fun f => by simp⟩
  | cons p rest ih =>
    rw [onPlaceholdersReplaced_cons] at h
    by_cases hout : (placeholderReplacements p).IsOutput = true
    · rw [if_pos hout] at h
      cases hcol : Collect g (placeholderReplacements p).owner with
      | none => rw [hcol] at h; cases h
      | some s =>
        rw [hcol] at h
        simp only [Option.map_some', Option.some_bind] at h
        obtain ⟨hroot, hiff⟩ := ih _ h
        have hs : ∀ f2 : Fin n,
            f2 ∈ s ↔ Reaches g false (placeholderReplacements p).owner f2 := by
          intro f2
          rw [Collect] at hcol
          cases ht : traverseF g false true n (placeholderReplacements p).owner ∅ with
          | none => rw [ht] at hcol; cases hcol
          | some out =>
            rw [ht] at hcol
            simp only [Option.map_some', Option.some.injEq] at hcol
            subst hcol
            exact traverseF_visited_iff g false true _ out ht f2
        refine ⟨hroot, fun f => ?_⟩
        rw [hiff f]
        have hm : f ∈ ({ c with m_allPrimitiveFunctions :=
            c.m_allPrimitiveFunctions ∪ s } : CompositeFunction n).m_allPrimitiveFunctions
            ↔ f ∈ c.m_allPrimitiveFunctions ∨ f ∈ s := Finset.mem_union
        rw [hm, hs f]
        constructor
        · rintro ((h1 | h1) | ⟨q, hq, hqo, hqr⟩)
          · exact Or.inl h1
          · exact Or.inr ⟨p, List.mem_cons_self _ _, hout, h1⟩
          · exact Or.inr ⟨q, List.mem_cons_of_mem _ hq, hqo, hqr⟩
        · rintro (h1 | ⟨q, hq, hqo, hqr⟩)
          · exact Or.inl (Or.inl h1)
          · rcases List.mem_cons.mp hq with rfl | hq2
            · exact Or.inl (Or.inr hqr)
            · exact Or.inr ⟨q, hq2, hqo, hqr⟩
    · rw [if_neg hout] at h
      simp only [Option.pure_def, Option.some_bind] at h
      obtain ⟨hroot, hiff⟩ := ih _ h
      refine ⟨hroot, fun f => ?_⟩
      rw [hiff f]
      constructor
      · rintro (h1 | ⟨q, hq, hqo, hqr⟩)
        · exact Or.inl h1
        · exact Or.inr ⟨q, List.mem_cons_of_mem _ hq, hqo, hqr⟩
      · rintro (h1 | ⟨q, hq, hqo, hqr⟩)
        · exact Or.inl h1
        · rcases List.mem_cons.mp hq with rfl | hq2
          · exact absurd hqo hout
          · exact Or.inr ⟨q, hq2, hqo, hqr⟩

/-- C4 witness: splicing the sub-graph under function 3 into the base
composite makes function 3 owned. -/
theorem on_placeholders_replaced_owned_witness :
    (3 : Fin 4) ∈ splicedOwned ↔
      (3 : Fin 4) ∈ diamondBaseComposite.m_allPrimitiveFunctions ∨
        ∃ p ∈ [dPlaceholder], (diamondReplacements p).IsOutput = true ∧
          Reaches diamondGraph false (diamondReplacements p).owner 3 :=
  (on_placeholders_replaced_owned diamondGraph diamondReplacements [dPlaceholder]
    diamondBaseComposite ⟨0, splicedOwned⟩ (by decide)).2 3

/-- C7: pre-order and post-order traversal with the same operand ordering
flag pass the same Variables to the visitor — same visited-function set and
traces that are permutations of each other — and differ only in position:
every pre-order call emits an operation's outputs before the traversal of
its inputs, every post-order call after it. -/
theorem pre_post_same_variables {n : Nat} (g : Graph n) (py : Bool)
    (root : Fin n) (vis1 vis2 : Finset (Fin n)) (tr1 tr2 : List (Variable n))
    (hpre : PreorderTraverseVariables g root py = some (vis1, tr1))
    (hpost : PostorderTraverseVariables g root py = some (vis2, tr2)) :
    vis1 = vis2 ∧ tr1.Perm tr2 ∧
    (∀ (fuel : Nat) (r : Fin n) (visited : Finset (Fin n))
      (out : Finset (Fin n) × List (Variable n)),
      traverseF g py true (fuel + 1) r visited = some out →
      ∃ rest, out.2 = g.outputsOf r ++ rest) ∧
    (∀ (fuel : Nat) (r : Fin n) (visited : Finset (Fin n))
      (out : Finset (Fin n) × List (Variable n)),
      traverseF g py false (fuel + 1) r visited = some out →
      ∃ rest, out.2 = rest ++ g.outputsOf r) := by
  have hpre' : traverseF g py true n root ∅ = some (vis1, tr1) := hpre
  have hpost' : traverseF g py false n root ∅ = some (vis2, tr2) := hpost
  have hvis : vis1 = vis2 := by
    have hq := traverseF_fst g py true false n root ∅
    rw [hpre', hpost'] at hq
    simpa using hq
  refine ⟨hvis, ?_,
    fun fuel r visited out hq => traverseF_pre_shape g py fuel r visited out hq,
    fun fuel r visited out hq => traverseF_post_shape g py fuel r visited out hq⟩
  have ht1 := traverseF_trace g py true n root ∅ (vis1, tr1)
    (Finset.not_mem_empty root) hpre'
  have ht2 := traverseF_trace g py false n root ∅ (vis2, tr2)
    (Finset.not_mem_empty root) hpost'
  rw [← Multiset.coe_eq_coe]
  rw [ht1, ht2, hvis]

/-- C7 witness: the diamond example's pre-order and post-order traces are
permutations of each other. -/
theorem pre_post_same_variables_witness :
    diamondTrace.Perm diamondTracePost :=
  (pre_post_same_variables diamondGraph false 0 diamondOwned diamondOwned
    diamondTrace diamondTracePost (by decide) (by decide)).2.1

end CNTK
